import Mathlib

/-!
# Verification of the Consolama session manager (`src/bot.py`)

A shallow embedding of the pure core of `src/bot.py`: token estimation,
transcript compression, context management, the transcript text codec
(`format_messages_for_display` / `parse_messages_from_text`), and the
post-edit logic of `show_conversation_editor`.

Python strings are modelled as `List Char`; `str.upper()` / `str.lower()`
are modelled character-wise by `Char.toUpper` / `Char.toLower` (the ASCII
case shift, which is what Python performs on the ASCII fragment).
`str.strip()` uses Python's default whitespace set.  The external model
call (`ollama.chat`) is an external collaborator; its outcome is passed to
the embedded functions as an `Except Unit (List Char)` value (`ok` carries
the returned summary text, `error` stands for any raised exception).
-/

namespace Bot

/-- Python's default whitespace set for `str.strip()`. -/
def isPySpace (c : Char) : Bool :=
  c == ' ' || c == '\t' || c == '\n' || c == '\r' || c == '\x0b' || c == '\x0c'

/-- Left part of Python `str.strip()`. -/
def pyStripLeft (s : List Char) : List Char := s.dropWhile isPySpace

/-- Right part of Python `str.strip()`. -/
def pyStripRight (s : List Char) : List Char := (s.reverse.dropWhile isPySpace).reverse

/-- Python `s.strip()`. -/
def pyStrip (s : List Char) : List Char := pyStripRight (pyStripLeft s)

/-- Python `s.upper()` (ASCII fragment). -/
def pyUpper (s : List Char) : List Char := s.map Char.toUpper

/-- Python `s.lower()` (ASCII fragment). -/
def pyLower (s : List Char) : List Char := s.map Char.toLower

/-- Python `s.split(t, 1)` at a single character `t`: `none` when `t ∉ s`,
otherwise the part before the first `t` and the part after it. -/
def splitFirst (t : Char) : List Char → Option (List Char × List Char)
  | [] => none
  | c :: cs =>
    if c = t then some ([], cs)
    else
      match splitFirst t cs with
      | none => none
      | some p => some (c :: p.1, p.2)

/-- Python `sep.join(parts)`. -/
def joinSep (sep : List Char) : List (List Char) → List Char
  | [] => []
  | [b] => b
  | b :: b' :: bs => b ++ sep ++ joinSep sep (b' :: bs)

/-- Python `text.split('\n\n')`: split at each non-overlapping occurrence of
two consecutive newlines, scanning left to right. -/
def splitBlank : List Char → List (List Char)
  | [] => [[]]
  | [c] => [[c]]
  | a :: b :: rest =>
    if a = '\n' ∧ b = '\n' then [] :: splitBlank rest
    else
      match splitBlank (b :: rest) with
      | [] => [[a]]
      | r :: rs => (a :: r) :: rs

/-- `True` iff the string contains two consecutive newlines (a `'\n\n'`
substring, i.e. a blank-line block boundary). -/
def hasBB : List Char → Bool
  | [] => false
  | [_] => false
  | a :: b :: rest => (a == '\n' && b == '\n') || hasBB (b :: rest)

/-- A `Message` dict of `src/bot.py`: a `role` and a `content` string. -/
structure Message where
  role : List Char
  content : List Char
deriving DecidableEq, Repr

/-- `MAX_CONTEXT_TOKENS` (src/bot.py line 8). -/
def MAX_CONTEXT_TOKENS : Nat := 8000

/-- `RECENT_TURNS_TO_KEEP` (src/bot.py line 9). -/
def RECENT_TURNS_TO_KEEP : Nat := 6

/-- `COMPRESSION_THRESHOLD` (src/bot.py line 10); `0.85` as an exact rational
(`8000 * 0.85` is exactly representable, the float product is exactly `6800.0`). -/
def COMPRESSION_THRESHOLD : ℚ := 85 / 100

/-- `estimate_tokens` (src/bot.py lines 12-16): `len(text) // 4`, with the
`if not text` guard returning 0 on the empty string. -/
def estimate_tokens (text : List Char) : Nat :=
  if text = [] then 0 else text.length / 4

/-- `count_context_tokens` (src/bot.py lines 18-27): the accumulation loop,
adding role estimate, content estimate and a 10-token overhead per message. -/
def count_context_tokens : List Message → Nat
  | [] => 0
  | msg :: rest =>
      estimate_tokens msg.role + estimate_tokens msg.content + 10 +
        count_context_tokens rest

/-- The role string `'system'`. -/
def systemRole : List Char := "system".data

/-- `messages[0] if messages[0].get('role') == 'system' else None`
(src/bot.py line 37; the `[]` case is unreachable there because the
length guard at line 34 already returned). -/
def leadSystem : List Message → Option Message
  | [] => none
  | m :: _ => if m.role = systemRole then some m else none

/-- The fixed marker prefix of the synthetic summary message
(src/bot.py line 76). -/
def summaryMarker : List Char := "[Previous conversation summary]: ".data

/-- The local `recent_messages` of `compress_messages` (src/bot.py line 38):
`messages[-(k*2):] if k > 0 else []`. -/
def recentMessages (messages : List Message) (recent_turns_to_keep : Nat) :
    List Message :=
  if 0 < recent_turns_to_keep then
    messages.drop (messages.length - recent_turns_to_keep * 2)
  else []

/-- The local `messages_to_compress` of `compress_messages` (src/bot.py
lines 41-44): the slice between the optional system message and the recent
suffix. -/
def messagesToCompress (messages : List Message) (recent_turns_to_keep : Nat) :
    List Message :=
  match leadSystem messages with
  | some _ =>
      if 0 < recent_turns_to_keep then
        (messages.take (messages.length - recent_turns_to_keep * 2)).drop 1
      else messages.drop 1
  | none =>
      if 0 < recent_turns_to_keep then
        messages.take (messages.length - recent_turns_to_keep * 2)
      else messages

/-- `compress_messages` (src/bot.py lines 29-88).  `summary` is the outcome
of the external `chat` call: `Except.ok s` when the call returns text `s`,
`Except.error ()` when it raises (the `except` branch at line 86). -/
def compress_messages (summary : Except Unit (List Char)) (messages : List Message)
    (recent_turns_to_keep : Nat) : List Message :=
  if messages.length ≤ recent_turns_to_keep * 2 + 1 then messages
  else if messagesToCompress messages recent_turns_to_keep = [] then messages
  else
    match summary with
    | Except.error _ => messages
    | Except.ok summary_content =>
        (leadSystem messages).toList ++
          Message.mk "assistant".data (summaryMarker ++ summary_content) ::
            recentMessages messages recent_turns_to_keep

/-- `manage_context` (src/bot.py lines 90-104).  The Python comparison
`current_tokens >= MAX_CONTEXT_TOKENS * COMPRESSION_THRESHOLD` compares an
int against the float `8000 * 0.85`, which is exactly `6800.0`; it is
modelled with exact rational arithmetic. -/
def manage_context (summary : Except Unit (List Char)) (messages : List Message) :
    List Message :=
  if (MAX_CONTEXT_TOKENS : ℚ) * COMPRESSION_THRESHOLD ≤
      (count_context_tokens messages : ℚ) then
    compress_messages summary messages RECENT_TURNS_TO_KEEP
  else messages

/-- Python `str(n)` for a natural number: standard decimal notation. -/
def natDigits (n : Nat) : List Char :=
  Nat.toDigits 10 n

/-- One rendered block `f"[{i}] {role.upper()}: {content}"`
(src/bot.py line 117). -/
def renderBlock (i : Nat) (m : Message) : List Char :=
  '[' :: natDigits i ++ ']' :: ' ' :: pyUpper m.role ++ ':' :: ' ' :: m.content

/-- The `enumerate(messages)` loop of `format_messages_for_display`,
started at index `i`. -/
def renderFrom (i : Nat) : List Message → List (List Char)
  | [] => []
  | m :: ms => renderBlock i m :: renderFrom (i + 1) ms

/-- `format_messages_for_display` (src/bot.py lines 111-118):
`'\n\n'.join(...)` over the enumerated blocks. -/
def format_messages_for_display (messages : List Message) : List Char :=
  joinSep ['\n', '\n'] (renderFrom 0 messages)

/-- Role extraction from a stripped header (src/bot.py lines 137-142):
when the header contains `']'`, take what follows the first `']'`,
stripped and lower-cased; otherwise the whole header, stripped (a no-op)
and lower-cased. -/
def parseRole (header : List Char) : List Char :=
  match splitFirst ']' header with
  | some br => pyLower (pyStrip br.2)
  | none => pyLower (pyStrip header)

/-- The per-block body of `parse_messages_from_text` (src/bot.py lines
125-144): blocks without a colon (including whitespace-only blocks) are
skipped; otherwise split at the first colon, strip both parts, and extract
the role from the header. -/
def parseBlock (block : List Char) : Option Message :=
  match splitFirst ':' block with
  | none => none
  | some pr => some (Message.mk (parseRole (pyStrip pr.1)) (pyStrip pr.2))

/-- `parse_messages_from_text` (src/bot.py lines 120-146):
`text.strip().split('\n\n')`, then the per-block parse. -/
def parse_messages_from_text (text : List Char) : List Message :=
  List.filterMap parseBlock (splitBlank (pyStrip text))

/-- The line filter of `show_conversation_editor` (src/bot.py lines
203-205): keep a line iff its stripped form is non-empty and does not
start with `'#'`. -/
def keepLine (l : List Char) : Bool :=
  match pyStrip l with
  | [] => false
  | c :: _ => c != '#'

/-- Lines 200-208 of src/bot.py: split the edited text into lines, drop
blank lines and comment lines, and re-join with `'\n'`. -/
def strip_comment_lines (text : List Char) : List Char :=
  joinSep ['\n'] ((text.splitOn '\n').filter keepLine)

/-- The pure post-edit logic of `show_conversation_editor` (src/bot.py
lines 200-223): given the prior transcript and the text read back from the
editor, either adopt the parsed transcript or keep the prior one. -/
def show_conversation_editor_result (messages : List Message)
    (edited_text : List Char) : List Message :=
  let edited_content := strip_comment_lines edited_text
  if pyStrip edited_content = [] then messages
  else
    match parse_messages_from_text edited_content with
    | [] => messages
    | parsed => parsed

/-- Whether the transcript starts with a message whose role is `'system'`
(spec §3: "Index 0, if present and role is `system`"). -/
def headIsSystem : List Message → Bool
  | [] => false
  | m :: _ => m.role == systemRole

/-- Whether the first line of `s` (up to the first newline) contains a
colon, i.e. matches the parser's block-header shape `ROLE:` /
`[index] ROLE:`. -/
def lineHasColon (s : List Char) : Bool :=
  (s.takeWhile (fun c => c != '\n')).contains ':'

/-- The round-trip caveat of the spec (§4.4): `s` contains a blank line
(`'\n\n'`) immediately followed by a line matching the block-header
grammar. -/
def hasBlankHeader : List Char → Bool
  | [] => false
  | c :: rest =>
      (c == '\n' &&
        (match rest with
         | '\n' :: r => lineHasColon r
         | _ => false)) || hasBlankHeader rest

/-- Conditions on a role under which the codec round-trip restores it:
already stripped, already lower-case, no colon, no blank line. -/
abbrev cleanRole (r : List Char) : Prop :=
  pyStrip r = r ∧ pyLower r = r ∧ ':' ∉ r ∧ hasBB r = false

/-- Conditions on a content under which the codec round-trip restores it:
already stripped and containing no blank line. -/
abbrev cleanContent (c : List Char) : Prop :=
  pyStrip c = c ∧ hasBB c = false

/-- `n` user/assistant turn pairs, for the compression scenario of spec §8. -/
def scenarioPairs : Nat → List Message
  | 0 => []
  | n + 1 =>
      Message.mk "user".data (natDigits n) ::
        Message.mk "assistant".data (natDigits n) :: scenarioPairs n

/-- The spec §8 scenario transcript: one system message plus 20
user/assistant pairs (41 messages). -/
def scenarioTranscript : List Message :=
  Message.mk "system".data "Be terse.".data :: scenarioPairs 20

/-- A four-message transcript with no leading system message. -/
def demoNoSystem : List Message :=
  [Message.mk "user".data "a".data, Message.mk "assistant".data "b".data,
   Message.mk "user".data "c".data, Message.mk "assistant".data "d".data]

/-- The transcript `demoNoSystem` with a leading system message. -/
def demoWithSystem : List Message :=
  Message.mk "system".data "Be terse.".data :: demoNoSystem

/-- A single-message transcript whose content has leading whitespace. -/
def demoSpaceContent : List Message :=
  [Message.mk "user".data " hi".data]

/-- The single-message transcript of the spec §8 render/parse scenario. -/
def demoRoundTrip : List Message :=
  [Message.mk "user".data "hi".data]

/-! ## Character-level helper lemmas -/

theorem toNat_ofNat_of_lt {n : Nat} (h : n < 55296) : (Char.ofNat n).toNat = n := by
  rw [Char.ofNat, dif_pos (Or.inl h)]
  rfl

theorem char_eq_of_toNat {a b : Char} (h : a.toNat = b.toNat) : a = b := by
  rw [← Char.ofNat_toNat a, ← Char.ofNat_toNat b, h]

theorem toUpper_cases (c : Char) :
    (97 ≤ c.toNat ∧ c.toNat ≤ 122 ∧ (Char.toUpper c).toNat = c.toNat - 32) ∨
      (¬(97 ≤ c.toNat ∧ c.toNat ≤ 122) ∧ Char.toUpper c = c) := by
  by_cases h : c.toNat ≥ 97 ∧ c.toNat ≤ 122
  · refine Or.inl ⟨h.1, h.2, ?_⟩
    show (if c.toNat ≥ 97 ∧ c.toNat ≤ 122 then Char.ofNat (c.toNat - 32) else c).toNat = _
    rw [if_pos h]
    exact toNat_ofNat_of_lt (by omega)
  · refine Or.inr ⟨h, ?_⟩
    show (if c.toNat ≥ 97 ∧ c.toNat ≤ 122 then Char.ofNat (c.toNat - 32) else c) = c
    rw [if_neg h]

theorem toLower_cases (c : Char) :
    (65 ≤ c.toNat ∧ c.toNat ≤ 90 ∧ (Char.toLower c).toNat = c.toNat + 32) ∨
      (¬(65 ≤ c.toNat ∧ c.toNat ≤ 90) ∧ Char.toLower c = c) := by
  by_cases h : c.toNat ≥ 65 ∧ c.toNat ≤ 90
  · refine Or.inl ⟨h.1, h.2, ?_⟩
    show (if c.toNat ≥ 65 ∧ c.toNat ≤ 90 then Char.ofNat (c.toNat + 32) else c).toNat = _
    rw [if_pos h]
    exact toNat_ofNat_of_lt (by omega)
  · refine Or.inr ⟨h, ?_⟩
    show (if c.toNat ≥ 65 ∧ c.toNat ≤ 90 then Char.ofNat (c.toNat + 32) else c) = c
    rw [if_neg h]

theorem toLower_toUpper_of_fixed {c : Char} (h : Char.toLower c = c) :
    Char.toLower (Char.toUpper c) = c := by
  rcases toUpper_cases c with ⟨h1, h2, h3⟩ | ⟨_, h1⟩
  · rcases toLower_cases (Char.toUpper c) with ⟨_, _, h6⟩ | ⟨h4, _⟩
    · exact char_eq_of_toNat (by omega)
    · exact absurd ⟨by omega, by omega⟩ h4
  · rw [h1, h]

theorem toUpper_eq_of_not_upper {c d : Char} (h : Char.toUpper c = d)
    (hd : d.toNat < 65 ∨ 90 < d.toNat) : c = d := by
  rcases toUpper_cases c with ⟨_, _, h3⟩ | ⟨_, h1⟩
  · rw [h] at h3
    omega
  · rw [← h, h1]

theorem toLower_toLower (c : Char) :
    Char.toLower (Char.toLower c) = Char.toLower c := by
  rcases toLower_cases c with ⟨_, _, h3⟩ | ⟨_, h1⟩
  · rcases toLower_cases (Char.toLower c) with ⟨h4, h5, _⟩ | ⟨_, h6⟩
    · omega
    · exact h6
  · rw [h1, h1]

theorem isPySpace_le (c : Char) (h : isPySpace c = true) : c.toNat ≤ 32 := by
  simp only [isPySpace, Bool.or_eq_true, beq_iff_eq] at h
  rcases h with ((((h | h) | h) | h) | h) | h <;> subst h <;> decide

theorem isPySpace_toUpper (c : Char) : isPySpace (Char.toUpper c) = isPySpace c := by
  rcases toUpper_cases c with ⟨h1, _, h3⟩ | ⟨_, h1⟩
  · have hc : isPySpace c = false := by
      cases h : isPySpace c
      · rfl
      · have := isPySpace_le c h
        omega
    have hu : isPySpace (Char.toUpper c) = false := by
      cases h : isPySpace (Char.toUpper c)
      · rfl
      · have := isPySpace_le _ h
        omega
    rw [hc, hu]
  · rw [h1]

theorem isPySpace_toLower (c : Char) : isPySpace (Char.toLower c) = isPySpace c := by
  rcases toLower_cases c with ⟨h1, _, h3⟩ | ⟨_, h1⟩
  · have hc : isPySpace c = false := by
      cases h : isPySpace c
      · rfl
      · have := isPySpace_le c h
        omega
    have hu : isPySpace (Char.toLower c) = false := by
      cases h : isPySpace (Char.toLower c)
      · rfl
      · have := isPySpace_le _ h
        omega
    rw [hc, hu]
  · rw [h1]

theorem toUpper_newline_iff (c : Char) : Char.toUpper c = '\n' ↔ c = '\n' := by
  constructor
  · intro h
    exact toUpper_eq_of_not_upper h (Or.inl (by decide))
  · intro h
    subst h
    decide

/-! ## Estimation (C9) -/

theorem estimate_eq_div (t : List Char) : estimate_tokens t = t.length / 4 := by
  unfold estimate_tokens
  split
  · subst ‹t = []›
    rfl
  · rfl

/-- C9: `estimate_tokens` computes `floor(len / 4)` (hence `0` on empty or
defaulted-absent text), and `count_context_tokens` sums
`estimate(role) + estimate(content) + 10` over the messages, a
non-negative integer. -/
theorem estimation_closed_form (t : List Char) (messages : List Message) :
    estimate_tokens t = t.length / 4 ∧ estimate_tokens [] = 0 ∧
      count_context_tokens messages =
        (messages.map fun m => m.role.length / 4 + m.content.length / 4 + 10).sum := by
  refine ⟨estimate_eq_div t, rfl, ?_⟩
  induction messages with
  | nil => rfl
  | cons m ms ih =>
      simp only [count_context_tokens, List.map_cons, List.sum_cons, estimate_eq_div, ih]

/-! ## Compression (C2, C3, C4, C5) -/

/-- C3: when the external summarization call fails, `compress_messages`
returns exactly its input, on every input and every `keep_recent`. -/
theorem compress_error_identity (e : Unit) (messages : List Message) (k : Nat) :
    compress_messages (Except.error e) messages k = messages := by
  unfold compress_messages
  split
  · rfl
  · split
    · rfl
    · rfl

/-- C5: when `len(messages) <= keep_recent*2 + 1`, `compress_messages` is a
no-op, whatever the summarization outcome. -/
theorem compress_noop_small (summary : Except Unit (List Char))
    (messages : List Message) (k : Nat) (h : messages.length ≤ k * 2 + 1) :
    compress_messages summary messages k = messages := by
  unfold compress_messages
  rw [if_pos h]

/-- Witness for `compress_noop_small`: a single system message with
`keep_recent = 6` is returned unchanged. -/
theorem compress_noop_small_witness :
    ([Message.mk "system".data "Be terse.".data] : List Message).length ≤ 6 * 2 + 1 ∧
      compress_messages (Except.ok "sum".data)
          [Message.mk "system".data "Be terse.".data] 6 =
        [Message.mk "system".data "Be terse.".data] :=
  ⟨by decide,
   compress_noop_small (Except.ok "sum".data)
     [Message.mk "system".data "Be terse.".data] 6 (by decide)⟩

/-- C4: whatever branch `compress_messages` takes (short-circuit, success,
or failure fallback), a leading `system` message stays at index 0. -/
theorem compress_keeps_system_head (summary : Except Unit (List Char))
    (m : Message) (ms : List Message) (k : Nat) (h : m.role = systemRole) :
    (compress_messages summary (m :: ms) k).head? = some m := by
  unfold compress_messages
  split
  · rfl
  · split
    · rfl
    · cases summary with
      | error e => rfl
      | ok s =>
          show ((leadSystem (m :: ms)).toList ++ _ :: _).head? = some m
          rw [leadSystem, if_pos h]
          rfl

/-- Witness for `compress_keeps_system_head` on a successfully compressed
five-message transcript. -/
theorem compress_keeps_system_head_witness :
    (Message.mk "system".data "Be terse.".data).role = systemRole ∧
      (compress_messages (Except.ok "sum".data)
          (Message.mk "system".data "Be terse.".data :: demoNoSystem) 1).head? =
        some (Message.mk "system".data "Be terse.".data) :=
  ⟨by decide,
   compress_keeps_system_head (Except.ok "sum".data)
     (Message.mk "system".data "Be terse.".data) demoNoSystem 1 (by decide)⟩

theorem messagesToCompress_ne_nil (messages : List Message) (k : Nat)
    (h : ¬messages.length ≤ k * 2 + 1) : messagesToCompress messages k ≠ [] := by
  intro heq
  unfold messagesToCompress at heq
  have hmin : min (messages.length - k * 2) messages.length =
      messages.length - k * 2 := Nat.min_eq_left (Nat.sub_le _ _)
  rcases hsys : leadSystem messages with _ | msys <;> rw [hsys] at heq <;>
    dsimp only at heq <;> by_cases hk : 0 < k
  · rw [if_pos hk] at heq
    have h1 := congrArg List.length heq
    rw [List.length_take, hmin, List.length_nil] at h1
    omega
  · rw [if_neg hk] at heq
    rw [heq] at h
    exact h (by simp)
  · rw [if_pos hk] at heq
    have h1 := congrArg List.length heq
    rw [List.length_drop, List.length_take, hmin, List.length_nil] at h1
    omega
  · rw [if_neg hk] at heq
    have h1 := congrArg List.length heq
    rw [List.length_drop, List.length_nil] at h1
    omega

theorem compress_ok_eq (s : List Char) (messages : List Message) (k : Nat)
    (h : ¬messages.length ≤ k * 2 + 1) :
    compress_messages (Except.ok s) messages k =
      (leadSystem messages).toList ++
        Message.mk "assistant".data (summaryMarker ++ s) ::
          recentMessages messages k := by
  unfold compress_messages
  rw [if_neg h, if_neg (messagesToCompress_ne_nil messages k h)]

theorem leadSystem_toList_length (messages : List Message) :
    (leadSystem messages).toList.length = if headIsSystem messages then 1 else 0 := by
  cases messages with
  | nil => rfl
  | cons m ms =>
      simp only [leadSystem, headIsSystem]
      by_cases h : m.role = systemRole
      · simp [h]
      · simp [h]

theorem recentMessages_length (messages : List Message) (k : Nat)
    (h : k * 2 ≤ messages.length) :
    (recentMessages messages k).length = if 0 < k then k * 2 else 0 := by
  unfold recentMessages
  by_cases hk : 0 < k
  · rw [if_pos hk, if_pos hk, List.length_drop]
    omega
  · rw [if_neg hk, if_neg hk]
    rfl

/-- C2 (amended): when the summarization call succeeds, the compressed list
has length at most `(1 if leading system else 0) + 1 + keep_recent*2`; in
every case (success, failure, or short-circuit) the result's last
`keep_recent*2` entries equal the input's last `keep_recent*2` entries in
their original order; and the spec §8 scenario (one system message plus 20
pairs, `keep_recent = 6`) compresses to exactly 14 messages whose last 12
entries are the original last 12. -/
theorem compress_length_bound_and_suffix (s : List Char) (messages : List Message)
    (k : Nat) :
    (compress_messages (Except.ok s) messages k).length ≤
        (if headIsSystem messages then 1 else 0) + 1 + k * 2 ∧
      (∀ summary : Except Unit (List Char),
          (compress_messages summary messages k).drop
              ((compress_messages summary messages k).length - k * 2) =
            messages.drop (messages.length - k * 2)) ∧
      (compress_messages (Except.ok s) scenarioTranscript 6).length = 14 ∧
      (compress_messages (Except.ok s) scenarioTranscript 6).drop 2 =
        scenarioTranscript.drop 29 := by
  refine ⟨?_, ?_, rfl, rfl⟩
  · by_cases h1 : messages.length ≤ k * 2 + 1
    · rw [compress_noop_small _ _ _ h1]
      split <;> omega
    · rw [compress_ok_eq s messages k h1, List.length_append, List.length_cons,
        leadSystem_toList_length, recentMessages_length messages k (by omega)]
      split_ifs <;> omega
  · intro summary
    by_cases h1 : messages.length ≤ k * 2 + 1
    · rw [compress_noop_small _ _ _ h1]
    · cases summary with
      | error e => rw [compress_error_identity]
      | ok s' =>
          rw [compress_ok_eq s' messages k h1]
          by_cases hk : 0 < k
          · have hR : (recentMessages messages k).length = k * 2 := by
              rw [recentMessages_length messages k (by omega), if_pos hk]
            have hsplit :
                (leadSystem messages).toList ++
                    Message.mk "assistant".data (summaryMarker ++ s') ::
                      recentMessages messages k =
                  ((leadSystem messages).toList ++
                      [Message.mk "assistant".data (summaryMarker ++ s')]) ++
                    recentMessages messages k := by
              simp
            have hlen :
                ((leadSystem messages).toList ++
                    Message.mk "assistant".data (summaryMarker ++ s') ::
                      recentMessages messages k).length - k * 2 =
                  ((leadSystem messages).toList ++
                      [Message.mk "assistant".data (summaryMarker ++ s')]).length := by
              simp [hR]
              omega
            rw [hlen, hsplit, List.drop_left]
            rw [recentMessages, if_pos hk]
          · have hk0 : k = 0 := by omega
            subst hk0
            have hR : recentMessages messages 0 = [] := by
              rw [recentMessages]
              rfl
            rw [hR]
            simp [List.drop_length]

/-- C2 counterexample: with four messages, no leading system message,
`keep_recent = 1` and a failing summarization call, `compress_messages`
returns all four messages, exceeding the claimed bound
`(0) + 1 + 1*2 = 3`. -/
theorem compress_length_bound_counterexample :
    ¬(compress_messages (Except.error ()) demoNoSystem 1).length ≤
        (if headIsSystem demoNoSystem then 1 else 0) + 1 + 1 * 2 := by
  decide

/-! ## Context management (C6) -/

/-- C6: `manage_context` measures the transcript with
`count_context_tokens` and compresses (with `keep_recent = 6`) exactly when
the estimate reaches `MAX_CONTEXT_TOKENS * COMPRESSION_THRESHOLD = 6800`,
returning the input unchanged otherwise. -/
theorem manage_context_threshold (summary : Except Unit (List Char))
    (messages : List Message) :
    manage_context summary messages =
      if 6800 ≤ count_context_tokens messages then
        compress_messages summary messages 6
      else messages := by
  unfold manage_context
  have h : ((MAX_CONTEXT_TOKENS : ℚ) * COMPRESSION_THRESHOLD ≤
      (count_context_tokens messages : ℚ)) ↔
      6800 ≤ count_context_tokens messages := by
    rw [show (MAX_CONTEXT_TOKENS : ℚ) * COMPRESSION_THRESHOLD = ((6800 : Nat) : ℚ) by
      unfold MAX_CONTEXT_TOKENS COMPRESSION_THRESHOLD
      norm_num]
    exact Nat.cast_le
  rw [if_congr h rfl rfl]
  rfl

/-! ## Editor round (C8) -/

/-- C8: if the edited text is empty after comment/blank stripping, or
parsing it yields zero messages, the editing round returns the prior
transcript; consequently it never turns a non-empty transcript into an
empty one. -/
theorem editor_keeps_prior (messages : List Message) (edited_text : List Char) :
    ((pyStrip (strip_comment_lines edited_text) = [] ∨
        parse_messages_from_text (strip_comment_lines edited_text) = []) →
      show_conversation_editor_result messages edited_text = messages) ∧
    (show_conversation_editor_result messages edited_text = [] → messages = []) := by
  unfold show_conversation_editor_result
  by_cases h1 : pyStrip (strip_comment_lines edited_text) = []
  · rw [if_pos h1]
    exact ⟨fun _ => rfl, fun h => h⟩
  · rw [if_neg h1]
    rcases hp : parse_messages_from_text (strip_comment_lines edited_text) with _ | ⟨p, ps⟩
    · exact ⟨fun _ => rfl, fun h => h⟩
    · constructor
      · intro h
        rcases h with h | h
        · exact absurd h h1
        · exact absurd h (by simp)
      · intro h
        exact absurd h (by simp)

/-- Witness for `editor_keeps_prior`: an edited file holding only a comment
line leaves the transcript unchanged. -/
theorem editor_keeps_prior_witness :
    pyStrip (strip_comment_lines "# only comments".data) = [] ∧
      show_conversation_editor_result demoRoundTrip "# only comments".data =
        demoRoundTrip :=
  ⟨by decide,
   (editor_keeps_prior demoRoundTrip "# only comments".data).1 (Or.inl (by decide))⟩

/-! ## Comment stripping (C7) -/

theorem joinSep_eq_intercalate (sep : List Char) (L : List (List Char)) :
    joinSep sep L = List.intercalate sep L := by
  induction L with
  | nil => rfl
  | cons b bs ih =>
      cases bs with
      | nil => simp [joinSep, List.intercalate]
      | cons b' bs' =>
          simp only [joinSep, List.intercalate, List.intersperse_cons₂,
            List.flatten_cons] at ih ⊢
          rw [ih]
          simp [List.append_assoc]

theorem splitOn_joinSep (L : List (List Char)) (hL : ∀ l ∈ L, '\n' ∉ l)
    (h : L ≠ []) : (joinSep ['\n'] L).splitOn '\n' = L := by
  rw [joinSep_eq_intercalate]
  exact @List.splitOn_intercalate Char L _ '\n' hL h

/-- C7: inserting a comment line (first non-whitespace character `'#'`)
anywhere between the lines of the edited text does not change the parse
result of the editor pipeline: comment lines are excluded wherever they
appear. -/
theorem comment_lines_excluded (ls1 ls2 : List (List Char)) (c : List Char)
    (h1 : ∀ l ∈ ls1, '\n' ∉ l) (h2 : ∀ l ∈ ls2, '\n' ∉ l) (hc : '\n' ∉ c)
    (hcomment : (pyStrip c).head? = some '#') :
    parse_messages_from_text
        (strip_comment_lines (joinSep ['\n'] (ls1 ++ c :: ls2))) =
      parse_messages_from_text
        (strip_comment_lines (joinSep ['\n'] (ls1 ++ ls2))) := by
  have hkc : keepLine c = false := by
    unfold keepLine
    rcases hpc : pyStrip c with _ | ⟨c0, rest⟩
    · rfl
    · rw [hpc] at hcomment
      simp only [List.head?_cons, Option.some.injEq] at hcomment
      simp [hcomment]
  congr 1
  unfold strip_comment_lines
  have hmem : ∀ l ∈ ls1 ++ c :: ls2, '\n' ∉ l := by
    intro l hl
    rcases List.mem_append.mp hl with h | h
    · exact h1 l h
    · rcases List.mem_cons.mp h with rfl | h
      · exact hc
      · exact h2 l h
  rw [splitOn_joinSep _ hmem (by simp), List.filter_append, List.filter_cons,
    if_neg (by simp [hkc])]
  by_cases hempty : ls1 ++ ls2 = []
  · rcases List.append_eq_nil.mp hempty with ⟨e1, e2⟩
    subst e1
    subst e2
    rfl
  · have hmem2 : ∀ l ∈ ls1 ++ ls2, '\n' ∉ l := by
      intro l hl
      rcases List.mem_append.mp hl with h | h
      · exact h1 l h
      · exact h2 l h
    rw [splitOn_joinSep _ hmem2 hempty, List.filter_append]

/-- Witness for `comment_lines_excluded`: a comment line after a message
block does not change the parsed transcript. -/
theorem comment_lines_excluded_witness :
    parse_messages_from_text
        (strip_comment_lines
          (joinSep ['\n'] (["[0] USER: hi".data] ++ "# note".data :: []))) =
      parse_messages_from_text
        (strip_comment_lines (joinSep ['\n'] (["[0] USER: hi".data] ++ []))) :=
  comment_lines_excluded ["[0] USER: hi".data] [] "# note".data
    (by decide) (by decide) (by decide) (by decide)

/-! ## Strip and case algebra -/

theorem dropWhile_idem (p : α → Bool) (l : List α) :
    (l.dropWhile p).dropWhile p = l.dropWhile p := by
  induction l with
  | nil => rfl
  | cons c t ih =>
      rw [List.dropWhile_cons]
      split
      · exact ih
      · rw [List.dropWhile_cons, if_neg (by simp_all)]

theorem dropWhile_cons_self (p : α → Bool) (c : α) (t : List α)
    (h : (c :: t).dropWhile p = c :: t) : p c = false := by
  cases hc : p c
  · rfl
  · rw [List.dropWhile_cons, if_pos hc] at h
    have hlen := congrArg List.length h
    have hle : (t.dropWhile p).length ≤ t.length :=
      (List.dropWhile_sublist p).length_le
    simp at hlen
    omega

theorem pyStripLeft_idem (s : List Char) :
    pyStripLeft (pyStripLeft s) = pyStripLeft s :=
  dropWhile_idem isPySpace s

theorem pyStripRight_idem (s : List Char) :
    pyStripRight (pyStripRight s) = pyStripRight s := by
  unfold pyStripRight
  rw [List.reverse_reverse, dropWhile_idem]

theorem pyStripRight_decomp (s : List Char) :
    s = pyStripRight s ++ (s.reverse.takeWhile isPySpace).reverse := by
  unfold pyStripRight
  have h := List.takeWhile_append_dropWhile isPySpace s.reverse
  have h2 := congrArg List.reverse h
  rw [List.reverse_append, List.reverse_reverse] at h2
  exact h2.symm

theorem pyStripLeft_pyStripRight (s : List Char) (h : pyStripLeft s = s) :
    pyStripLeft (pyStripRight s) = pyStripRight s := by
  rcases hr : pyStripRight s with _ | ⟨c, t⟩
  · rfl
  · have hpre := pyStripRight_decomp s
    rw [hr] at hpre
    have hc : isPySpace c = false := by
      apply dropWhile_cons_self isPySpace c
        (t ++ (s.reverse.takeWhile isPySpace).reverse)
      rw [← List.cons_append, ← hpre]
      exact h
    unfold pyStripLeft
    rw [List.dropWhile_cons, if_neg (by simp [hc])]

theorem pyStrip_idem (s : List Char) : pyStrip (pyStrip s) = pyStrip s := by
  unfold pyStrip
  rw [pyStripLeft_pyStripRight (pyStripLeft s) (pyStripLeft_idem s),
    pyStripRight_idem]

theorem isPySpace_comp_toLower : (isPySpace ∘ Char.toLower) = isPySpace :=
  funext isPySpace_toLower

theorem pyStripLeft_pyLower (s : List Char) :
    pyStripLeft (pyLower s) = pyLower (pyStripLeft s) := by
  unfold pyStripLeft pyLower
  rw [List.dropWhile_map, isPySpace_comp_toLower]

theorem pyStripRight_pyLower (s : List Char) :
    pyStripRight (pyLower s) = pyLower (pyStripRight s) := by
  unfold pyStripRight pyLower
  rw [← List.map_reverse, List.dropWhile_map, isPySpace_comp_toLower,
    ← List.map_reverse]

theorem pyStrip_pyLower (s : List Char) :
    pyStrip (pyLower s) = pyLower (pyStrip s) := by
  unfold pyStrip
  rw [pyStripLeft_pyLower, pyStripRight_pyLower]

theorem pyLower_idem (s : List Char) : pyLower (pyLower s) = pyLower s := by
  unfold pyLower
  rw [List.map_map]
  congr 1
  funext c
  exact toLower_toLower c

theorem parseRole_normalized (h : List Char) :
    pyLower (parseRole h) = parseRole h ∧ pyStrip (parseRole h) = parseRole h := by
  unfold parseRole
  rcases splitFirst ']' h with _ | br <;>
    exact ⟨pyLower_idem _, by rw [pyStrip_pyLower, pyStrip_idem]⟩

/-! ## Decimal-digit facts -/

theorem digitChar_digit {d : Nat} (h : d < 10) :
    48 ≤ (Nat.digitChar d).toNat ∧ (Nat.digitChar d).toNat ≤ 57 := by
  interval_cases d <;> decide

theorem toDigitsCore_digits (fuel : Nat) : ∀ (n : Nat) (ds : List Char),
    (∀ c ∈ ds, 48 ≤ c.toNat ∧ c.toNat ≤ 57) →
      ∀ c ∈ Nat.toDigitsCore 10 fuel n ds, 48 ≤ c.toNat ∧ c.toNat ≤ 57 := by
  induction fuel with
  | zero => intro n ds hds; exact hds
  | succ fuel ih =>
      intro n ds hds c hc
      rw [Nat.toDigitsCore] at hc
      have hd : ∀ x ∈ Nat.digitChar (n % 10) :: ds,
          48 ≤ x.toNat ∧ x.toNat ≤ 57 := by
        intro x hx
        rcases List.mem_cons.mp hx with rfl | hx
        · exact digitChar_digit (Nat.mod_lt _ (by norm_num))
        · exact hds x hx
      split at hc
      · exact hd c hc
      · exact ih (n / 10) (Nat.digitChar (n % 10) :: ds) hd c hc

theorem natDigits_digit (n : Nat) : ∀ c ∈ natDigits n,
    48 ≤ c.toNat ∧ c.toNat ≤ 57 := by
  unfold natDigits Nat.toDigits
  exact toDigitsCore_digits (n + 1) n [] (by intro c hc; cases hc)

theorem natDigits_props (n : Nat) : ∀ c ∈ natDigits n,
    c ≠ ':' ∧ c ≠ ']' ∧ c ≠ '\n' ∧ isPySpace c = false := by
  intro c hc
  have h := natDigits_digit n c hc
  refine ⟨?_, ?_, ?_, ?_⟩
  · rintro rfl
    exact absurd h (by decide)
  · rintro rfl
    exact absurd h (by decide)
  · rintro rfl
    exact absurd h (by decide)
  · cases hw : isPySpace c
    · rfl
    · have := isPySpace_le c hw
      omega

/-! ## Blank-line (`hasBB`) facts -/

theorem hasBB_cons_false (c : Char) (cs : List Char)
    (h : hasBB (c :: cs) = false) : hasBB cs = false := by
  cases cs with
  | nil => rfl
  | cons d t =>
      have h' : ((c == '\n' && d == '\n') || hasBB (d :: t)) = false := h
      exact (Bool.or_eq_false_iff.mp h').2

theorem hasBB_append_of (a b : List Char) (ha : hasBB a = false)
    (hb : hasBB b = false) (hhead : ∀ d, b.head? = some d → d ≠ '\n') :
    hasBB (a ++ b) = false := by
  induction a with
  | nil => exact hb
  | cons c t ih =>
      cases t with
      | nil =>
          cases b with
          | nil => rfl
          | cons d u =>
              show ((c == '\n' && d == '\n') || hasBB (d :: u)) = false
              have hd : d ≠ '\n' := hhead d rfl
              rw [hb]
              simp [hd]
      | cons e u =>
          show ((c == '\n' && e == '\n') || hasBB (e :: (u ++ b))) = false
          have h2 : ((c == '\n' && e == '\n') || hasBB (e :: u)) = false := ha
          rcases Bool.or_eq_false_iff.mp h2 with ⟨h3, h4⟩
          rw [h3]
          simpa using ih h4

theorem hasBB_of_append_left (a b : List Char) (h : hasBB (a ++ b) = false) :
    hasBB a = false := by
  induction a with
  | nil => rfl
  | cons c t ih =>
      cases t with
      | nil => rfl
      | cons e u =>
          show ((c == '\n' && e == '\n') || hasBB (e :: u)) = false
          have h' : ((c == '\n' && e == '\n') || hasBB (e :: (u ++ b))) = false := h
          rcases Bool.or_eq_false_iff.mp h' with ⟨h1, h2⟩
          rw [h1, ih h2]
          rfl

theorem hasBB_no_newline (l : List Char) (h : ∀ c ∈ l, c ≠ '\n') :
    hasBB l = false := by
  induction l with
  | nil => rfl
  | cons c t ih =>
      cases t with
      | nil => rfl
      | cons d u =>
          show ((c == '\n' && d == '\n') || hasBB (d :: u)) = false
          have hc := h c (by simp)
          rw [ih fun x hx => h x (List.mem_cons_of_mem _ hx)]
          simp [hc]

theorem beq_toUpper_newline (c : Char) :
    (Char.toUpper c == '\n') = (c == '\n') := by
  by_cases h : c = '\n'
  · subst h
    decide
  · have h2 : Char.toUpper c ≠ '\n' := fun he => h ((toUpper_newline_iff c).mp he)
    simp [h, h2]

theorem hasBB_pyUpper (r : List Char) : hasBB (pyUpper r) = hasBB r := by
  unfold pyUpper
  induction r with
  | nil => rfl
  | cons c t ih =>
      cases t with
      | nil => rfl
      | cons d u =>
          show ((Char.toUpper c == '\n' && Char.toUpper d == '\n') ||
              hasBB (Char.toUpper d :: u.map Char.toUpper)) =
            ((c == '\n' && d == '\n') || hasBB (d :: u))
          rw [beq_toUpper_newline, beq_toUpper_newline]
          have ih' : hasBB (Char.toUpper d :: u.map Char.toUpper) = hasBB (d :: u) := ih
          rw [ih']

/-! ## `splitFirst` facts -/

theorem splitFirst_append (t : Char) (xs ys : List Char) (h : t ∉ xs) :
    splitFirst t (xs ++ t :: ys) = some (xs, ys) := by
  induction xs with
  | nil =>
      show splitFirst t (t :: ys) = _
      unfold splitFirst
      rw [if_pos rfl]
  | cons c u ih =>
      show splitFirst t (c :: (u ++ t :: ys)) = _
      unfold splitFirst
      rw [if_neg (by rintro rfl; exact h (by simp)), ih fun hm => h (List.mem_cons_of_mem _ hm)]

/-! ## `splitBlank` facts -/

theorem splitBlank_cut (rest : List Char) :
    splitBlank ('\n' :: '\n' :: rest) = [] :: splitBlank rest := by
  conv_lhs => rw [splitBlank]
  rw [if_pos ⟨rfl, rfl⟩]

theorem splitBlank_no_bb (b : List Char) (h : hasBB b = false) :
    splitBlank b = [b] := by
  induction b with
  | nil => rfl
  | cons c t ih =>
      cases t with
      | nil => rfl
      | cons d u =>
          have h2 : hasBB (d :: u) = false := hasBB_cons_false c _ h
          have h' : ((c == '\n' && d == '\n') || hasBB (d :: u)) = false := h
          have h1 : ¬(c = '\n' ∧ d = '\n') := by
            rintro ⟨rfl, rfl⟩
            simp at h'
          unfold splitBlank
          rw [if_neg h1, ih h2]

theorem splitBlank_append (b rest : List Char) (hbb : hasBB b = false)
    (hlast : ∀ c, b.getLast? = some c → c ≠ '\n') :
    splitBlank (b ++ '\n' :: '\n' :: rest) = b :: splitBlank rest := by
  induction b with
  | nil => exact splitBlank_cut rest
  | cons c t ih =>
      cases t with
      | nil =>
          have hc : c ≠ '\n' := hlast c rfl
          show splitBlank (c :: '\n' :: '\n' :: rest) = [c] :: splitBlank rest
          conv_lhs => rw [splitBlank]
          rw [if_neg (by rintro ⟨rfl, _⟩; exact hc rfl), splitBlank_cut]
      | cons d u =>
          have h2 : hasBB (d :: u) = false := hasBB_cons_false c _ hbb
          have h' : ((c == '\n' && d == '\n') || hasBB (d :: u)) = false := hbb
          have h1 : ¬(c = '\n' ∧ d = '\n') := by
            rintro ⟨rfl, rfl⟩
            simp at h'
          have hlast2 : ∀ x, (d :: u).getLast? = some x → x ≠ '\n' := by
            intro x hx
            exact hlast x (by rw [List.getLast?_cons_cons]; exact hx)
          show splitBlank (c :: d :: (u ++ '\n' :: '\n' :: rest)) =
            (c :: d :: u) :: splitBlank rest
          conv_lhs => rw [splitBlank]
          rw [if_neg h1]
          have ih' : splitBlank (d :: (u ++ '\n' :: '\n' :: rest)) =
              (d :: u) :: splitBlank rest := ih h2 hlast2
          rw [ih']

/-! ## Strip computation facts -/

theorem pyStripLeft_cons_of_neg (c : Char) (t : List Char)
    (h : isPySpace c = false) : pyStripLeft (c :: t) = c :: t := by
  unfold pyStripLeft
  rw [List.dropWhile_cons, if_neg (by simp [h])]

theorem pyStripRight_eq_self (s : List Char)
    (h : ∀ c, s.getLast? = some c → isPySpace c = false) : pyStripRight s = s := by
  unfold pyStripRight
  cases hs : s.reverse with
  | nil =>
      have h2 : s = [] := by simpa using congrArg List.reverse hs
      subst h2
      rfl
  | cons a t =>
      have hc : s.getLast? = some a := by
        rw [List.getLast?_eq_head?_reverse, hs]
        rfl
      rw [List.dropWhile_cons, if_neg (by simp [h a hc])]
      have h2 := congrArg List.reverse hs
      rw [List.reverse_reverse] at h2
      exact h2.symm

theorem pyStripRight_append (a b : List Char) (h : pyStripRight b ≠ []) :
    pyStripRight (a ++ b) = a ++ pyStripRight b := by
  unfold pyStripRight at *
  rw [List.reverse_append, List.dropWhile_append]
  split
  · rename_i hemp
    exfalso
    apply h
    rw [List.isEmpty_iff.mp hemp]
    rfl
  · rw [List.reverse_append, List.reverse_reverse]

theorem pyStripRight_ne_nil (b : List Char) (c : Char) (hc : c ∈ b)
    (hw : isPySpace c = false) : pyStripRight b ≠ [] := by
  unfold pyStripRight
  intro h
  have h2 : b.reverse.dropWhile isPySpace = [] := by
    have h3 := congrArg List.reverse h
    simpa using h3
  have hall := List.dropWhile_eq_nil_iff.mp h2
  have := hall c (List.mem_reverse.mpr hc)
  simp [hw] at this

theorem clean_parts (s : List Char) (h : pyStrip s = s) :
    pyStripLeft s = s ∧ pyStripRight s = s := by
  unfold pyStrip at h
  have h1 : (pyStripLeft s).length ≤ s.length :=
    (List.dropWhile_sublist _).length_le
  have h2 : (pyStripRight (pyStripLeft s)).length ≤ (pyStripLeft s).length := by
    unfold pyStripRight
    calc ((pyStripLeft s).reverse.dropWhile isPySpace).reverse.length
        = ((pyStripLeft s).reverse.dropWhile isPySpace).length :=
          List.length_reverse _
      _ ≤ (pyStripLeft s).reverse.length := (List.dropWhile_sublist _).length_le
      _ = (pyStripLeft s).length := List.length_reverse _
  have hlen := congrArg List.length h
  have e1 : (pyStripLeft s).length = s.length := by omega
  have hsl : pyStripLeft s = s := (List.dropWhile_sublist _).eq_of_length e1
  rw [hsl] at h
  exact ⟨hsl, h⟩

theorem clean_head (s : List Char) (h : pyStrip s = s) :
    ∀ c, s.head? = some c → isPySpace c = false := by
  intro c hc
  have hsl := (clean_parts s h).1
  cases s with
  | nil => cases hc
  | cons a t =>
      have ha : a = c := by simpa using hc
      subst ha
      exact dropWhile_cons_self isPySpace a t hsl

theorem clean_last (s : List Char) (h : pyStrip s = s) :
    ∀ c, s.getLast? = some c → isPySpace c = false := by
  intro c hc
  have hsr := (clean_parts s h).2
  unfold pyStripRight at hsr
  have h2 : s.reverse.dropWhile isPySpace = s.reverse := by
    have h3 := congrArg List.reverse hsr
    rwa [List.reverse_reverse] at h3
  rcases hs : s.reverse with _ | ⟨a, t⟩
  · rw [List.getLast?_eq_head?_reverse, hs] at hc
    cases hc
  · have ha : a = c := by
      rw [List.getLast?_eq_head?_reverse, hs] at hc
      simpa using hc
    subst ha
    rw [hs] at h2
    exact dropWhile_cons_self isPySpace a t h2

/-! ## Per-block render/parse lemmas -/

theorem hasBB_cons_of (c : Char) (cs : List Char) (hc : c ≠ '\n')
    (h : hasBB cs = false) : hasBB (c :: cs) = false := by
  cases cs with
  | nil => rfl
  | cons d t =>
      show ((c == '\n' && d == '\n') || hasBB (d :: t)) = false
      rw [h]
      simp [hc]

theorem map_eq_self_mem {f : α → α} {l : List α} (h : l.map f = l) :
    ∀ c ∈ l, f c = c := by
  induction l with
  | nil => intro c hc; cases hc
  | cons a t ih =>
      rw [List.map_cons] at h
      injection h with h1 h2
      intro c hc
      rcases List.mem_cons.mp hc with rfl | hc
      · exact h1
      · exact ih h2 c hc

theorem map_eq_self_of {f : α → α} {l : List α} (h : ∀ c ∈ l, f c = c) :
    l.map f = l := by
  induction l with
  | nil => rfl
  | cons a t ih =>
      rw [List.map_cons, h a (by simp), ih fun c hc => h c (List.mem_cons_of_mem _ hc)]

theorem pyLower_pyUpper_of_fixed {r : List Char} (h : pyLower r = r) :
    pyLower (pyUpper r) = r := by
  unfold pyLower pyUpper
  rw [List.map_map]
  have hmem := map_eq_self_mem h
  exact map_eq_self_of fun c hc =>
    toLower_toUpper_of_fixed (hmem c hc)

theorem getLast?_append_right (A B : List α) (h : B ≠ []) :
    (A ++ B).getLast? = B.getLast? := by
  rw [List.getLast?_append]
  rcases hB : B.getLast? with _ | b
  · rw [List.getLast?_eq_none_iff] at hB
    exact absurd hB h
  · rfl

theorem pyStripRight_trailing_space (xs : List Char) (c : Char)
    (hc : isPySpace c = false) : pyStripRight (xs ++ c :: [' ']) = xs ++ [c] := by
  unfold pyStripRight
  rw [List.reverse_append]
  show (List.dropWhile isPySpace (' ' :: c :: xs.reverse)).reverse = xs ++ [c]
  rw [List.dropWhile_cons, if_pos (by decide), List.dropWhile_cons,
    if_neg (by simp [hc])]
  rw [List.reverse_cons, List.reverse_reverse]

theorem pyStrip_space_content (C : List Char) (h : pyStrip C = C) :
    pyStrip (' ' :: C) = C := by
  unfold pyStrip
  have h1 : pyStripLeft (' ' :: C) = pyStripLeft C := by
    unfold pyStripLeft
    rw [List.dropWhile_cons, if_pos (by decide)]
  rw [h1, (clean_parts C h).1, (clean_parts C h).2]

theorem bracket_not_in_lead (i : Nat) : ']' ∉ ('[' :: natDigits i) := by
  intro hm
  rcases List.mem_cons.mp hm with he | hm
  · exact absurd he (by decide)
  · exact (natDigits_props i _ hm).2.1 rfl

theorem colon_not_in_header (i : Nat) (r : List Char) (hcolon : ':' ∉ r) :
    ':' ∉ ('[' :: natDigits i) ++ (']' :: ' ' :: pyUpper r) := by
  intro hm
  rcases List.mem_append.mp hm with h | h
  · rcases List.mem_cons.mp h with he | h
    · exact absurd he (by decide)
    · exact (natDigits_props i _ h).1 rfl
  · rcases List.mem_cons.mp h with he | h
    · exact absurd he (by decide)
    · rcases List.mem_cons.mp h with he | h
      · exact absurd he (by decide)
      · unfold pyUpper at h
        rcases List.mem_map.mp h with ⟨a, ha, hu⟩
        have he : a = ':' := toUpper_eq_of_not_upper hu (Or.inl (by decide))
        subst he
        exact hcolon ha

theorem parseRole_header (i : Nat) (r : List Char) (hr : cleanRole r) :
    parseRole (pyStrip (('[' :: natDigits i) ++ (']' :: ' ' :: pyUpper r))) = r := by
  obtain ⟨hstrip, hlower, hcolon, hbb⟩ := hr
  by_cases hr0 : r = []
  · subst hr0
    have hstrip0 : pyStrip (('[' :: natDigits i) ++ (']' :: ' ' :: pyUpper [])) =
        ('[' :: natDigits i) ++ [']'] := by
      unfold pyStrip
      have hl : pyStripLeft (('[' :: natDigits i) ++ (']' :: [' '])) =
          ('[' :: natDigits i) ++ (']' :: [' ']) := by
        show pyStripLeft ('[' :: (natDigits i ++ (']' :: [' ']))) = _
        rw [pyStripLeft_cons_of_neg _ _ (by decide)]
        rfl
      rw [show pyUpper ([] : List Char) = [] from rfl, hl]
      exact pyStripRight_trailing_space ('[' :: natDigits i) ']' (by decide)
    rw [hstrip0]
    unfold parseRole
    rw [splitFirst_append ']' ('[' :: natDigits i) [] (bracket_not_in_lead i)]
    rfl
  · have hRne : pyUpper r ≠ [] := by simp [pyUpper, hr0]
    have hhead : ∀ c, (pyUpper r).head? = some c → isPySpace c = false := by
      intro c hc
      rcases hru : r.head? with _ | a
      · rw [pyUpper, List.head?_map, hru] at hc
        cases hc
      · rw [pyUpper, List.head?_map, hru] at hc
        have ha : Char.toUpper a = c := by simpa using hc
        subst ha
        rw [isPySpace_toUpper]
        exact clean_head r hstrip a hru
    have hlast : ∀ c, (pyUpper r).getLast? = some c → isPySpace c = false := by
      intro c hc
      rcases hru : r.getLast? with _ | a
      · rw [pyUpper, List.getLast?_map, hru] at hc
        cases hc
      · rw [pyUpper, List.getLast?_map, hru] at hc
        have ha : Char.toUpper a = c := by simpa using hc
        subst ha
        rw [isPySpace_toUpper]
        exact clean_last r hstrip a hru
    have hgl : ∀ c,
        ((('[' :: natDigits i) ++ (']' :: ' ' :: pyUpper r))).getLast? = some c →
          isPySpace c = false := by
      intro c hc
      rw [getLast?_append_right _ _ (by simp),
        show (']' :: ' ' :: pyUpper r) = [']', ' '] ++ pyUpper r from rfl,
        getLast?_append_right _ _ hRne] at hc
      exact hlast c hc
    have hstr : pyStrip (('[' :: natDigits i) ++ (']' :: ' ' :: pyUpper r)) =
        ('[' :: natDigits i) ++ (']' :: ' ' :: pyUpper r) := by
      unfold pyStrip
      have hl : pyStripLeft (('[' :: natDigits i) ++ (']' :: ' ' :: pyUpper r)) =
          ('[' :: natDigits i) ++ (']' :: ' ' :: pyUpper r) := by
        show pyStripLeft ('[' :: (natDigits i ++ (']' :: ' ' :: pyUpper r))) = _
        rw [pyStripLeft_cons_of_neg _ _ (by decide)]
        rfl
      rw [hl]
      exact pyStripRight_eq_self _ hgl
    rw [hstr]
    unfold parseRole
    rw [splitFirst_append ']' ('[' :: natDigits i) (' ' :: pyUpper r)
      (bracket_not_in_lead i)]
    show pyLower (pyStrip (' ' :: pyUpper r)) = r
    have hstripR : pyStrip (pyUpper r) = pyUpper r := by
      unfold pyStrip
      have hl : pyStripLeft (pyUpper r) = pyUpper r := by
        rcases hR : pyUpper r with _ | ⟨x, xs⟩
        · rfl
        · refine pyStripLeft_cons_of_neg x xs ?_
          apply hhead
          rw [hR]
          rfl
      rw [hl]
      exact pyStripRight_eq_self _ hlast
    rw [pyStrip_space_content _ hstripR]
    exact pyLower_pyUpper_of_fixed hlower

theorem parseBlock_header (i : Nat) (r C' : List Char) (hr : cleanRole r) :
    parseBlock ((('[' :: natDigits i) ++ (']' :: ' ' :: pyUpper r)) ++ ':' :: C') =
      some (Message.mk r (pyStrip C')) := by
  unfold parseBlock
  rw [splitFirst_append ':' _ C' (colon_not_in_header i r hr.2.2.1)]
  show some (Message.mk
      (parseRole (pyStrip (('[' :: natDigits i) ++ (']' :: ' ' :: pyUpper r))))
      (pyStrip C')) = _
  rw [parseRole_header i r hr]

theorem parseBlock_render (i : Nat) (m : Message) (hr : cleanRole m.role)
    (hc : cleanContent m.content) : parseBlock (renderBlock i m) = some m := by
  have h1 : renderBlock i m =
      (('[' :: natDigits i) ++ (']' :: ' ' :: pyUpper m.role)) ++
        ':' :: (' ' :: m.content) := rfl
  rw [h1, parseBlock_header i m.role (' ' :: m.content) hr,
    pyStrip_space_content _ hc.1]

theorem renderBlock_getLast_not_nl (i : Nat) (m : Message)
    (hc : cleanContent m.content) :
    ∀ c, (renderBlock i m).getLast? = some c → c ≠ '\n' := by
  intro c hcl
  have hsh : renderBlock i m =
      (('[' :: natDigits i) ++ (']' :: ' ' :: pyUpper m.role)) ++
        ':' :: ' ' :: m.content := rfl
  rw [hsh, getLast?_append_right _ _ (by simp)] at hcl
  rcases hC : m.content with _ | ⟨x, xs⟩
  · rw [hC] at hcl
    have he : c = ' ' := by
      have h0 : (':' :: ' ' :: ([] : List Char)).getLast? = some ' ' := rfl
      rw [h0] at hcl
      exact (Option.some.inj hcl).symm
    subst he
    decide
  · rw [hC, List.getLast?_cons_cons, List.getLast?_cons_cons] at hcl
    have hw := clean_last m.content hc.1 c (by rw [hC]; exact hcl)
    rintro rfl
    exact absurd hw (by decide)

theorem renderBlock_hasBB (i : Nat) (m : Message) (hr : cleanRole m.role)
    (hc : cleanContent m.content) : hasBB (renderBlock i m) = false := by
  obtain ⟨_, _, _, hbbr⟩ := hr
  obtain ⟨_, hbbc⟩ := hc
  have s1 : hasBB (':' :: ' ' :: m.content) = false :=
    hasBB_cons_of _ _ (by decide) (hasBB_cons_of _ _ (by decide) hbbc)
  have s2 : hasBB (pyUpper m.role ++ ':' :: ' ' :: m.content) = false := by
    refine hasBB_append_of _ _ ?_ s1 ?_
    · rw [hasBB_pyUpper]
      exact hbbr
    · intro d hd
      have he : ':' = d := by simpa using hd
      subst he
      decide
  have s3 : hasBB (']' :: ' ' :: (pyUpper m.role ++ ':' :: ' ' :: m.content)) =
      false :=
    hasBB_cons_of _ _ (by decide) (hasBB_cons_of _ _ (by decide) s2)
  have s4 : hasBB (natDigits i ++
      ']' :: ' ' :: (pyUpper m.role ++ ':' :: ' ' :: m.content)) = false := by
    refine hasBB_append_of _ _ ?_ s3 ?_
    · exact hasBB_no_newline _ fun c hcm => (natDigits_props i c hcm).2.2.1
    · intro d hd
      have he : ']' = d := by simpa using hd
      subst he
      decide
  have s5 := hasBB_cons_of '[' _ (by decide) s4
  have hshape : renderBlock i m = '[' :: (natDigits i ++
      ']' :: ' ' :: (pyUpper m.role ++ ':' :: ' ' :: m.content)) := by
    show (('[' :: natDigits i) ++ (']' :: ' ' :: pyUpper m.role)) ++
        ':' :: ' ' :: m.content = _
    simp [List.append_assoc]
  rw [hshape]
  exact s5

theorem parseBlock_strip_render (i : Nat) (m : Message) (hr : cleanRole m.role)
    (hc : cleanContent m.content) :
    parseBlock (pyStripRight (renderBlock i m)) = some m := by
  by_cases hC : m.content = []
  · have h1 : pyStripRight (renderBlock i m) =
        (('[' :: natDigits i) ++ (']' :: ' ' :: pyUpper m.role)) ++ [':'] := by
      have hsh : renderBlock i m =
          (('[' :: natDigits i) ++ (']' :: ' ' :: pyUpper m.role)) ++
            ':' :: [' '] := by
        rw [show renderBlock i m =
            (('[' :: natDigits i) ++ (']' :: ' ' :: pyUpper m.role)) ++
              ':' :: ' ' :: m.content from rfl, hC]
      rw [hsh]
      exact pyStripRight_trailing_space _ ':' (by decide)
    rw [h1, parseBlock_header i m.role [] hr,
      show pyStrip [] = ([] : List Char) from rfl, ← hC]
  · have hgl : ∀ c, (renderBlock i m).getLast? = some c → isPySpace c = false := by
      intro c hcl
      have hsh : renderBlock i m =
          (('[' :: natDigits i) ++ (']' :: ' ' :: pyUpper m.role)) ++
            ':' :: ' ' :: m.content := rfl
      rw [hsh, getLast?_append_right _ _ (by simp),
        show (':' :: ' ' :: m.content) = [':', ' '] ++ m.content from rfl,
        getLast?_append_right _ _ hC] at hcl
      exact clean_last m.content hc.1 c hcl
    rw [pyStripRight_eq_self _ hgl]
    exact parseBlock_render i m hr hc

/-! ## Whole-text round trip (C1) -/

theorem joinSep_renderFrom_shape (i : Nat) (m : Message) (ms : List Message) :
    ∃ t2, joinSep ['\n', '\n'] (renderFrom i (m :: ms)) = '[' :: t2 := by
  cases ms with
  | nil => exact ⟨_, rfl⟩
  | cons m2 ms2 => exact ⟨_, rfl⟩

theorem pyStripRight_text_ne (i : Nat) (m : Message) (ms : List Message) :
    pyStripRight (joinSep ['\n', '\n'] (renderFrom i (m :: ms))) ≠ [] := by
  obtain ⟨t2, ht⟩ := joinSep_renderFrom_shape i m ms
  rw [ht]
  exact pyStripRight_ne_nil _ '[' (by simp) (by decide)

theorem parse_blocks (msgs : List Message) : ∀ (i : Nat),
    (∀ m ∈ msgs, cleanRole m.role ∧ cleanContent m.content) →
      List.filterMap parseBlock (splitBlank (pyStripRight
        (joinSep ['\n', '\n'] (renderFrom i msgs)))) = msgs := by
  induction msgs with
  | nil => intro i _; rfl
  | cons m ms ih =>
      intro i h
      obtain ⟨hrm, hcm⟩ := h m (by simp)
      cases ms with
      | nil =>
          show List.filterMap parseBlock
            (splitBlank (pyStripRight (renderBlock i m))) = [m]
          have ht := pyStripRight_decomp (renderBlock i m)
          have hbb' : hasBB (pyStripRight (renderBlock i m)) = false := by
            apply hasBB_of_append_left _ ((renderBlock i m).reverse.takeWhile isPySpace).reverse
            rw [← ht]
            exact renderBlock_hasBB i m hrm hcm
          rw [splitBlank_no_bb _ hbb', List.filterMap_cons,
            parseBlock_strip_render i m hrm hcm]
          rfl
      | cons m2 ms2 =>
          have hT := pyStripRight_text_ne (i + 1) m2 ms2
          show List.filterMap parseBlock (splitBlank (pyStripRight
            ((renderBlock i m ++ ['\n', '\n']) ++
              joinSep ['\n', '\n'] (renderFrom (i + 1) (m2 :: ms2))))) =
            m :: m2 :: ms2
          rw [pyStripRight_append (renderBlock i m ++ ['\n', '\n']) _ hT,
            List.append_assoc]
          rw [show renderBlock i m ++ (['\n', '\n'] ++ pyStripRight
              (joinSep ['\n', '\n'] (renderFrom (i + 1) (m2 :: ms2)))) =
            renderBlock i m ++ '\n' :: '\n' :: pyStripRight
              (joinSep ['\n', '\n'] (renderFrom (i + 1) (m2 :: ms2))) from rfl]
          rw [splitBlank_append _ _ (renderBlock_hasBB i m hrm hcm)
            (renderBlock_getLast_not_nl i m hcm)]
          rw [List.filterMap_cons, parseBlock_render i m hrm hcm]
          have ih' := ih (i + 1) fun x hx => h x (List.mem_cons_of_mem _ hx)
          rw [ih']

/-- C1 (amended): `parse(render(m)) = m` holds for every transcript whose
roles are already stripped, lower-case, colon-free and blank-line-free, and
whose contents are already stripped and blank-line-free.  (The claim's own
weaker hypothesis is refuted by `parse_format_roundtrip_counterexample`.) -/
theorem parse_format_roundtrip (msgs : List Message)
    (h : ∀ m ∈ msgs, cleanRole m.role ∧ cleanContent m.content) :
    parse_messages_from_text (format_messages_for_display msgs) = msgs := by
  cases msgs with
  | nil => rfl
  | cons m ms =>
      unfold parse_messages_from_text format_messages_for_display
      obtain ⟨t2, ht⟩ := joinSep_renderFrom_shape 0 m ms
      have hsl : pyStripLeft (joinSep ['\n', '\n'] (renderFrom 0 (m :: ms))) =
          joinSep ['\n', '\n'] (renderFrom 0 (m :: ms)) := by
        rw [ht]
        exact pyStripLeft_cons_of_neg _ _ (by decide)
      unfold pyStrip
      rw [hsl]
      exact parse_blocks (m :: ms) 0 h

/-- C1 counterexample: the transcript `[{user, " hi"}]` satisfies the
claim's hypothesis (its content holds no blank line followed by a
header-shaped line) yet does not round-trip: parsing the rendered text
strips the content's leading space. -/
theorem parse_format_roundtrip_counterexample :
    (∀ m ∈ demoSpaceContent, hasBlankHeader m.content = false) ∧
      parse_messages_from_text (format_messages_for_display demoSpaceContent) ≠
        demoSpaceContent := by
  decide

/-- Witness for `parse_format_roundtrip`: the spec §8 scenario transcript
`[{user, "hi"}]` round-trips. -/
theorem parse_format_roundtrip_witness :
    (∀ m ∈ demoRoundTrip, cleanRole m.role ∧ cleanContent m.content) ∧
      parse_messages_from_text (format_messages_for_display demoRoundTrip) =
        demoRoundTrip :=
  ⟨by decide, parse_format_roundtrip demoRoundTrip (by decide)⟩

/-! ## Parse-output invariants (C10) -/

/-- C10: every message produced by `parse_messages_from_text` has a role
that is already lower-cased and stripped, and a content with no leading or
trailing whitespace. -/
theorem parse_output_normalized (text : List Char) (m : Message)
    (hm : m ∈ parse_messages_from_text text) :
    pyLower m.role = m.role ∧ pyStrip m.role = m.role ∧
      pyStrip m.content = m.content := by
  unfold parse_messages_from_text at hm
  rcases List.mem_filterMap.mp hm with ⟨block, _, hb⟩
  unfold parseBlock at hb
  rcases hsp : splitFirst ':' block with _ | pr <;> rw [hsp] at hb
  · exact absurd hb (by simp)
  · have hm' : m = Message.mk (parseRole (pyStrip pr.1)) (pyStrip pr.2) := by
      dsimp only at hb
      exact (Option.some.inj hb).symm
    subst hm'
    exact ⟨(parseRole_normalized _).1, (parseRole_normalized _).2, pyStrip_idem _⟩

/-- Witness for `parse_output_normalized` on the parse of
`"[0] USER: hi"`. -/
theorem parse_output_normalized_witness :
    Message.mk "user".data "hi".data ∈ parse_messages_from_text "[0] USER: hi".data ∧
      pyLower "user".data = "user".data ∧ pyStrip "user".data = "user".data ∧
        pyStrip "hi".data = "hi".data :=
  ⟨by decide,
   parse_output_normalized "[0] USER: hi".data
     (Message.mk "user".data "hi".data) (by decide)⟩

end Bot
